import Mathlib

/-!
# Verification of the cashupp cryptographic core

Shallow embedding of the BDHKE / DLEQ / key-derivation layer of the
repository (`src/cashu/core/crypto/secp.cpp`, `b_dhke.cpp`, `keys.cpp`)
and proofs of the claims about it.

Modelling decisions, shared by the whole file:

* C++ `std::string` and `std::vector<uint8_t>` are both raw byte
  sequences; we embed both as `List ℕ` whose entries are byte values.

* `cpp_int` (boost arbitrary-precision, used non-negatively throughout
  the embedded code) is embedded as `ℕ`, with the source's explicit
  `% CURVE_ORDER` reductions kept explicit.

* The external libsecp256k1 backend computes in the cyclic group
  generated by the secp256k1 base point `G`, whose order
  `CURVE_ORDER` is prime, with cofactor 1: the map `k ↦ k·G` is a group
  isomorphism from `ZMod CURVE_ORDER` onto the full point set (0 being
  the point at infinity).  We therefore embed a curve point by its
  discrete logarithm, `Point := ZMod CURVE_ORDER`; point addition is
  `+`, negation is `-`, scalar multiplication is `*` by the scalar's
  residue.  The library's failure conditions are kept exactly:
  `secp256k1_ec_pubkey_combine` fails iff the sum is the point at
  infinity (residue 0), `secp256k1_ec_pubkey_tweak_mul` fails iff the
  reduced scalar is zero.  Because we do not formalise the primality of
  `CURVE_ORDER`, facts that follow from it on the real curve (a product
  of two nonzero residues is nonzero) appear as explicit hypotheses of
  the theorems; each such hypothesis is discharged at concrete inputs
  by the witnesses.

* Calls into OpenSSL (`SHA256`, `HMAC-SHA512`) and the two
  serialization routines of libsecp256k1 are external leaf functions;
  they are abstracted as function parameters (`sha256`, `hmac_sha512`,
  `serializeU`, `serializeC`, `parsePoint`), so every theorem below is
  proved for every behaviour of these collaborators (restricted, where
  needed, by the hypothesis that a SHA-256 digest is 32 bytes).

* C++ exceptions become `Except Err`; random draws become explicit
  parameters (the spec itself prescribes "randomness as a parameter").
-/

namespace Cashu

/-- Error kinds thrown by the embedded code.  `invalidScalar` stands for the
`std::invalid_argument` thrown by `PrivateKey` construction (both the
wrong-length and the out-of-range message), `invalidPoint` for point parsing
failures, the rest for the `std::runtime_error`s of the named operations. -/
inductive Err where
  | invalidScalar
  | invalidPoint
  | combineFailed
  | tweakMulFailed
  | hashToCurveExhausted
  | derivationPathInvalid
  | unsupportedVersion
  deriving DecidableEq, Repr

deriving instance DecidableEq for Except

/-- secp256k1 group order, the constant `secp256k1_const::CURVE_ORDER` of
`secp.cpp`. -/
def CURVE_ORDER : ℕ :=
  0xFFFFFFFFFFFFFFFFFFFFFFFFFFFFFFFEBAAEDCE6AF48A03BBFD25E8CD0364141

instance : NeZero CURVE_ORDER := ⟨by decide⟩

/-- A curve point, embedded by its discrete logarithm with respect to the
base point `G` (see the file header); residue 0 is the point at infinity,
which no constructed `PublicKey` ever holds. -/
abbrev Point := ZMod CURVE_ORDER

/-- A `PrivateKey` of `secp.cpp`: its `cpp_int` member together with the
invariant `validate_key` enforces on every construction path
(`secp_utils::is_valid_private_key`: `value > 0 && value < CURVE_ORDER`). -/
abbrev PrivateKey := {v : ℕ // 0 < v ∧ v < CURVE_ORDER}

/-- Big-endian byte-sequence-to-integer conversion, the loop
`private_key_ = (private_key_ << 8) + key_data[i]` of the `PrivateKey`
byte/hex constructors. -/
def bytesToNatBE (bs : List ℕ) : ℕ :=
  bs.foldl (fun acc b => acc * 256 + b) 0

/-- Big-endian fixed-width integer-to-bytes conversion, the loop
`result[i] = temp & 0xFF; temp >>= 8` (for `i = 31` down to `0`) of
`PrivateKey::serialize`, generalised to any width. -/
def natToBytesBE : ℕ → ℕ → List ℕ
  | 0, _ => []
  | w + 1, v => natToBytesBE w (v / 256) ++ [v % 256]

/-- Construction of a `PrivateKey` from a `cpp_int`
(`PrivateKey::PrivateKey(const cpp_int&)` followed by `validate_key`). -/
def mkPrivateKeyNat (v : ℕ) : Except Err PrivateKey :=
  if h : 0 < v ∧ v < CURVE_ORDER then .ok ⟨v, h⟩ else .error .invalidScalar

/-- Construction of a `PrivateKey` from bytes
(`PrivateKey::PrivateKey(const vector<uint8_t>&)`): exactly 32 bytes,
big-endian value, then `validate_key`. -/
def mkPrivateKeyBytes (bs : List ℕ) : Except Err PrivateKey :=
  if bs.length = 32 then mkPrivateKeyNat (bytesToNatBE bs) else .error .invalidScalar

/-- Value of one ASCII hex digit; `none` on a non-hex byte.  The C++
`istringstream >> std::hex` path accepts both cases; on a malformed digit the
stream fails (we model that as `none`, where C++ leaves a garbage byte), so
all hex theorems below are stated on well-formed hex input only. -/
def hexCharVal (c : ℕ) : Option ℕ :=
  if 48 ≤ c ∧ c ≤ 57 then some (c - 48)
  else if 97 ≤ c ∧ c ≤ 102 then some (c - 87)
  else if 65 ≤ c ∧ c ≤ 70 then some (c - 55)
  else none

/-- Pairs of hex digits to bytes, the parsing loop of
`secp_utils::hex_to_bytes` (which consumes two characters at a time). -/
def hexPairsToBytes : List ℕ → Option (List ℕ)
  | [] => some []
  | a :: b :: rest => do
    let hi ← hexCharVal a
    let lo ← hexCharVal b
    let tail ← hexPairsToBytes rest
    return (hi * 16 + lo) :: tail
  | [_] => none

/-- The function `secp_utils::hex_to_bytes` of `secp.cpp`: strip an optional
`0x`/`0X` prefix, left-pad an odd-length string with `'0'`, parse hex pairs.
ASCII codes: `48 = '0'`, `120 = 'x'`, `88 = 'X'`. -/
def hex_to_bytes (s : List ℕ) : Option (List ℕ) :=
  let s1 := if s.take 2 = [48, 120] ∨ s.take 2 = [48, 88] then s.drop 2 else s
  let s2 := if s1.length % 2 = 1 then 48 :: s1 else s1
  hexPairsToBytes s2

/-- Construction of a `PrivateKey` from a hex string
(`PrivateKey::PrivateKey(const string&)`): `hex_to_bytes`, a 32-byte length
check, big-endian value, then `validate_key`. -/
def mkPrivateKeyHex (s : List ℕ) : Except Err PrivateKey :=
  match hex_to_bytes s with
  | none => .error .invalidScalar
  | some bs => mkPrivateKeyBytes bs

/-- The raw 32-byte big-endian serialization `PrivateKey::serialize`. -/
def PrivateKey.serialize (k : PrivateKey) : List ℕ :=
  natToBytesBE 32 k.val

/-- The public point of a scalar, `PrivateKey::pubkey` (`k·G`, which in the
discrete-logarithm embedding is the residue of `k` itself).  It cannot fail:
`secp256k1_ec_pubkey_create` fails only on an out-of-range scalar and the
`PrivateKey` invariant excludes that. -/
def PrivateKey.pubkey (k : PrivateKey) : Point := (k.val : Point)

/-- Scalar tweak addition `PrivateKey::tweak_add`:
`(private_key_ + scalar) % CURVE_ORDER`, re-validated by the `PrivateKey`
constructor (so the result 0 throws). -/
def PrivateKey.tweak_add (k : PrivateKey) (scalar : ℕ) : Except Err PrivateKey :=
  mkPrivateKeyNat ((k.val + scalar) % CURVE_ORDER)

/-- Scalar tweak multiplication `PrivateKey::tweak_mul`:
`(private_key_ * scalar) % CURVE_ORDER`, re-validated likewise. -/
def PrivateKey.tweak_mul (k : PrivateKey) (scalar : ℕ) : Except Err PrivateKey :=
  mkPrivateKeyNat ((k.val * scalar) % CURVE_ORDER)

/-- Point addition `PublicKey::operator+`:
`secp256k1_ec_pubkey_combine`, which fails exactly when the sum is the point
at infinity. -/
def pubAdd (P Q : Point) : Except Err Point :=
  if P + Q = 0 then .error .combineFailed else .ok (P + Q)

/-- Point negation `PublicKey::operator-()` (unary): flip the parity byte of
the compressed serialization, i.e. negate the point.  Total: a constructed
compressed key always starts with `0x02` or `0x03`. -/
def pubNeg (P : Point) : Point := -P

/-- Point subtraction `PublicKey::operator-(other)`: `*this + (-other)`. -/
def pubSub (P Q : Point) : Except Err Point :=
  pubAdd P (pubNeg Q)

/-- Point-scalar multiplication `PublicKey::tweak_mul`: the scalar is reduced
`% CURVE_ORDER` and serialized, and `secp256k1_ec_pubkey_tweak_mul` fails
exactly when that reduced scalar is zero. -/
def pubTweakMul (P : Point) (scalar : ℕ) : Except Err Point :=
  if scalar % CURVE_ORDER = 0 then .error .tweakMulFailed
  else .ok (((scalar % CURVE_ORDER : ℕ) : Point) * P)

/-- The wrapper `PublicKey::mult(const PrivateKey&)`:
`tweak_mul(scalar.raw_value())`. -/
def pubMult (P : Point) (k : PrivateKey) : Except Err Point :=
  pubTweakMul P k.val

/-! ## b_dhke.cpp: hash-to-curve, BDHKE, DLEQ

External collaborators appear as explicit function parameters:
`sha256` for OpenSSL's `SHA256`, `parsePoint` for
`PublicKey(point_data, false)` used as an on-curve test (it yields the
decoded point, `none` when construction throws), `serializeU` for
`PublicKey::serialize(false)` (uncompressed, 65 bytes). -/

/-- Domain separator for hash-to-curve operations, the byte constant
`DOMAIN_SEPARATOR` of `b_dhke.cpp` ("Secp256k1_HashToCurve_Cashu_"). -/
def DOMAIN_SEPARATOR : List ℕ :=
  [0x53, 0x65, 0x63, 0x70, 0x32, 0x35, 0x36, 0x6b, 0x31, 0x5f, 0x48, 0x61,
   0x73, 0x68, 0x54, 0x6f, 0x43, 0x75, 0x72, 0x76, 0x65, 0x5f, 0x43, 0x61,
   0x73, 0x68, 0x75, 0x5f]

/-- The helper `uint32_to_le_bytes` of `b_dhke.cpp`: a 32-bit counter in
little-endian byte order. -/
def uint32_to_le_bytes (value : ℕ) : List ℕ :=
  [value % 256, value / 2 ^ 8 % 256, value / 2 ^ 16 % 256, value / 2 ^ 24 % 256]

variable (sha256 : List ℕ → List ℕ)
variable (parsePoint : List ℕ → Option Point)
variable (serializeU : Point → List ℕ)
variable (serializeC : Point → List ℕ)
variable (hmac_sha512 : List ℕ → List ℕ → List ℕ)

/-- The counter loop of `hash_to_curve`, indexed by the remaining number of
iterations (`fuel`); the C++ loop starts at `counter = 0` with
`2^16` iterations available and throws when they are exhausted. -/
def htcLoop (msgHash : List ℕ) : ℕ → ℕ → Except Err Point
  | _, 0 => .error .hashToCurveExhausted
  | counter, fuel + 1 =>
    match parsePoint (0x02 :: sha256 (msgHash ++ uint32_to_le_bytes counter)) with
    | some P => .ok P
    | none => htcLoop msgHash (counter + 1) fuel

/-- The function `hash_to_curve` of `b_dhke.cpp`: hash the domain separator
concatenated with the message, then try counters 0, 1, 2, … (little-endian,
at most `2^16` of them), prefixing each round's digest with `0x02` and
accepting the first digest that parses as a curve point. -/
def hash_to_curve (message : List ℕ) : Except Err Point :=
  htcLoop sha256 parsePoint (sha256 (DOMAIN_SEPARATOR ++ message)) 0 (2 ^ 16)

/-- The rehash loop of `hash_to_curve_deprecated`, indexed by fuel.  The C++
loop (`while (true)`) is unbounded: on any fixed message it either returns
within some fuel or never returns; `fuel` makes that explicit. -/
def htcDepLoop : ℕ → List ℕ → Except Err Point
  | 0, _ => .error .hashToCurveExhausted
  | fuel + 1, msgToHash =>
    let hashOut := sha256 msgToHash
    match parsePoint (0x02 :: hashOut) with
    | some P => .ok P
    | none => htcDepLoop fuel hashOut

/-- The function `hash_to_curve_deprecated` of `b_dhke.cpp`: no domain
separator and no counter, just rehash the previous digest until a point with
prefix `0x02` parses. -/
def hash_to_curve_deprecated (fuel : ℕ) (message : List ℕ) : Except Err Point :=
  htcDepLoop sha256 parsePoint fuel message

/-- The function `step1_alice` of `b_dhke.cpp`.  `rnd` is the random scalar
the default `PrivateKey()` constructor would draw when no blinding factor is
supplied. -/
def step1_alice (secret_msg : List ℕ) (blinding_factor : Option PrivateKey)
    (rnd : PrivateKey) : Except Err (Point × PrivateKey) := do
  let Y ← hash_to_curve sha256 parsePoint secret_msg
  let r := blinding_factor.getD rnd
  let B_ ← pubAdd Y r.pubkey
  return (B_, r)

/-- The ASCII code of one lowercase hex digit, as `oss << hex` prints it. -/
def hexDigitAscii (d : ℕ) : ℕ := if d < 10 then 48 + d else 87 + d

/-- Lowercase two-digit-per-byte hex encoding (ASCII codes), the
`setfill('0') << setw(2) << hex` loop used by `hash_e` of `b_dhke.cpp` and
`secp_utils::bytes_to_hex` of `secp.cpp`. -/
def bytesToHexAscii (bs : List ℕ) : List ℕ :=
  (bs.map (fun b => [hexDigitAscii (b / 16 % 16), hexDigitAscii (b % 16)])).flatten

/-- The function `hash_e` of `b_dhke.cpp`: SHA-256 of the concatenated
lowercase-hex uncompressed serializations of `R1`, `R2`, `A`, `C'`, in that
order. -/
def hash_e (R1 R2 A C_ : Point) : List ℕ :=
  sha256 (bytesToHexAscii (serializeU R1) ++ bytesToHexAscii (serializeU R2) ++
    bytesToHexAscii (serializeU A) ++ bytesToHexAscii (serializeU C_))

/-- The function `step2_bob_dleq` of `b_dhke.cpp`.  `p_bytes` is the
deterministic-nonce argument; `rnd` is the random scalar drawn when it is
empty. -/
def step2_bob_dleq (B_ : Point) (a : PrivateKey) (p_bytes : List ℕ)
    (rnd : PrivateKey) : Except Err (PrivateKey × PrivateKey) := do
  let p ← if p_bytes ≠ [] then mkPrivateKeyBytes p_bytes else pure rnd
  let R1 := p.pubkey
  let R2 ← pubMult B_ p
  let C_ ← pubMult B_ a
  let A := a.pubkey
  let e_bytes := hash_e sha256 serializeU R1 R2 A C_
  let e ← mkPrivateKeyBytes e_bytes
  let a_times_e ← a.tweak_mul e.val
  let s ← p.tweak_add a_times_e.val
  return (e, s)

/-- The function `step2_bob` of `b_dhke.cpp`: `C' = a·B'` plus the DLEQ
proof; `rnd` is the random DLEQ nonce. -/
def step2_bob (B_ : Point) (a : PrivateKey) (rnd : PrivateKey) :
    Except Err (Point × PrivateKey × PrivateKey) := do
  let C_ ← pubMult B_ a
  let es ← step2_bob_dleq sha256 serializeU B_ a [] rnd
  return (C_, es.1, es.2)

/-- The function `step3_alice` of `b_dhke.cpp`: `C = C' − r·A`. -/
def step3_alice (C_ : Point) (r : PrivateKey) (A : Point) : Except Err Point := do
  let r_times_A ← pubMult A r
  pubSub C_ r_times_A

/-- The function `alice_verify_dleq` of `b_dhke.cpp`: recompute
`R1 = s·G − e·A`, `R2 = s·B' − e·C'` and compare `hash_e(R1, R2, A, C')`
with the serialized `e`. -/
def alice_verify_dleq (B_ C_ : Point) (e s : PrivateKey) (A : Point) :
    Except Err Bool := do
  let s_times_G := s.pubkey
  let e_times_A ← pubMult A e
  let R1 ← pubSub s_times_G e_times_A
  let s_times_B_ ← pubMult B_ s
  let e_times_C_ ← pubMult C_ e
  let R2 ← pubSub s_times_B_ e_times_C_
  let computed_e := hash_e sha256 serializeU R1 R2 A C_
  let provided_e := e.serialize
  return decide (computed_e = provided_e)

/-- The function `verify_deprecated` of `b_dhke.cpp`: the plain BDHKE check
against the legacy hash-to-curve variant. -/
def verify_deprecated (depFuel : ℕ) (a : PrivateKey) (C : Point)
    (secret_msg : List ℕ) : Except Err Bool := do
  let Y ← hash_to_curve_deprecated sha256 parsePoint depFuel secret_msg
  let a_times_Y ← pubMult Y a
  return decide (C = a_times_Y)

/-- The function `verify` of `b_dhke.cpp`: check `C == a·hash_to_curve(m)`,
and only on failure fall back to `verify_deprecated` (the
"BACKWARDS COMPATIBILITY < 0.15.1" block). -/
def verify (depFuel : ℕ) (a : PrivateKey) (C : Point) (secret_msg : List ℕ) :
    Except Err Bool := do
  let Y ← hash_to_curve sha256 parsePoint secret_msg
  let a_times_Y ← pubMult Y a
  if C = a_times_Y then return true
  else verify_deprecated sha256 parsePoint depFuel a C secret_msg

/-- The function `carol_verify_dleq_deprecated` of `b_dhke.cpp`: reconstruct
`C' = C + r·A` and `B' = hash_to_curve_deprecated(m) + r·G`, then run
`alice_verify_dleq`. -/
def carol_verify_dleq_deprecated (depFuel : ℕ) (secret_msg : List ℕ)
    (r : PrivateKey) (C : Point) (e s : PrivateKey) (A : Point) :
    Except Err Bool := do
  let Y ← hash_to_curve_deprecated sha256 parsePoint depFuel secret_msg
  let r_times_A ← pubMult A r
  let C_ ← pubAdd C r_times_A
  let B_ ← pubAdd Y r.pubkey
  alice_verify_dleq sha256 serializeU B_ C_ e s A

/-- The function `carol_verify_dleq` of `b_dhke.cpp`: reconstruct
`C' = C + r·A` and `B' = hash_to_curve(m) + r·G`, run `alice_verify_dleq`,
and only on failure fall back to the deprecated variant. -/
def carol_verify_dleq (depFuel : ℕ) (secret_msg : List ℕ) (r : PrivateKey)
    (C : Point) (e s : PrivateKey) (A : Point) : Except Err Bool := do
  let Y ← hash_to_curve sha256 parsePoint secret_msg
  let r_times_A ← pubMult A r
  let C_ ← pubAdd C r_times_A
  let r_times_G := r.pubkey
  let B_ ← pubAdd Y r_times_G
  let valid ← alice_verify_dleq sha256 serializeU B_ C_ e s A
  if valid then return true
  else
    carol_verify_dleq_deprecated sha256 parsePoint serializeU depFuel secret_msg r C e s A

/-- The function `secp_utils::generate_random_key` of `secp.cpp`.
`secureBytes` is the outcome of `RAND_bytes` (`some bytes` on success, `none`
when the secure source reports failure) and `weakBytes` is what the
`mt19937`-based fallback loop would fill in.  Note that on `none` the code
does NOT throw: it silently uses the weak bytes. -/
def generate_random_key (secureBytes : Option (List ℕ)) (weakBytes : List ℕ) :
    Except Err PrivateKey :=
  match secureBytes with
  | some bs => mkPrivateKeyBytes bs
  | none => mkPrivateKeyBytes weakBytes

/-! ## keys.cpp: version-aware key derivation and keyset identifiers

`hmac_sha512` abstracts OpenSSL's `HMAC(EVP_sha512(), key, data)` (64-byte
output); `serializeC` abstracts `PublicKey::serialize(true)` (compressed,
33 bytes). -/

/-- Decimal ASCII digits of a natural number, C++ `std::to_string`. -/
def decimalAscii (n : ℕ) : List ℕ :=
  if h : n < 10 then [48 + n]
  else
    have : n / 10 < n := Nat.div_lt_self (by omega) (by omega)
    decimalAscii (n / 10) ++ [48 + n % 10]

/-- Big-endian 32-bit serialization, the helper `uint32_to_big_endian`. -/
def uint32_to_be_bytes (value : ℕ) : List ℕ :=
  [value / 2 ^ 24 % 256, value / 2 ^ 16 % 256, value / 2 ^ 8 % 256, value % 256]

/-- Value of the maximal leading run of decimal digits, the behaviour of
`std::stoul`/`std::stoi` on the digit strings that occur in paths and
version strings; `none` when the string does not start with a digit (where
C++ throws). -/
def leadingDecimal (s : List ℕ) : Option ℕ :=
  let digits := s.takeWhile (fun c => 48 ≤ c ∧ c ≤ 57)
  if digits = [] then none
  else some (digits.foldl (fun acc c => acc * 10 + (c - 48)) 0)

/-- One segment of `BIP32Helper::parse_path`: an optional trailing `'`
(ASCII 39) marks a hardened index (`index |= 0x80000000`). -/
def parsePathSegment (seg : List ℕ) : Except Err ℕ :=
  let hardened := seg.getLast? = some 39
  let body := if hardened then seg.dropLast else seg
  match leadingDecimal body with
  | none => .error .derivationPathInvalid
  | some index => .ok (if hardened then index + 2 ^ 31 else index)

/-- The function `BIP32Helper::parse_path`: the path must start with `m`
(ASCII 109); the rest is split on `/` (ASCII 47), empty segments skipped. -/
def parse_path (path : List ℕ) : Except Err (List ℕ) :=
  if path.head? = some 109 then
    ((path.drop 1).splitOn 47).filterMap
      (fun seg => if seg = [] then none else some seg)
      |>.mapM parsePathSegment
  else .error .derivationPathInvalid

/-- The ASCII bytes of `"Bitcoin seed"`, the HMAC key of BIP32 master-key
derivation. -/
def bitcoinSeedBytes : List ℕ :=
  [66, 105, 116, 99, 111, 105, 110, 32, 115, 101, 101, 100]

/-- The function `BIP32Helper::derive_child_key_with_chain_code`: BIP32
child derivation with explicit chain-code threading.  Hardened indices
(bit 31 set) authenticate `0x00 ‖ parent_key ‖ index`, others
`compressed_parent_pubkey ‖ index`; the child scalar is
`(parent + left_half) mod CURVE_ORDER`, re-validated by the `PrivateKey`
constructor. -/
def derive_child_key_with_chain_code (parent_key : PrivateKey)
    (parent_chain_code : List ℕ) (index : ℕ) :
    Except Err (PrivateKey × List ℕ) := do
  let parent_bytes := parent_key.serialize
  let index_bytes := uint32_to_be_bytes index
  let hardened := index / 2 ^ 31 % 2 = 1
  let hmac_input :=
    if hardened then 0 :: parent_bytes ++ index_bytes
    else serializeC parent_key.pubkey ++ index_bytes
  let hmac_result := hmac_sha512 parent_chain_code hmac_input
  let scalar := bytesToNatBE (hmac_result.take 32)
  let child_chain_code := hmac_result.drop 32
  let child ← mkPrivateKeyNat ((parent_key.val + scalar) % CURVE_ORDER)
  return (child, child_chain_code)

/-- The function `BIP32Helper::get_privkey_from_path` (the seed is the raw
mnemonic bytes, per the nutshell-compatible constructor): master key and
chain code from `HMAC-SHA512("Bitcoin seed", seed)`, then one child
derivation per path index. -/
def get_privkey_from_path (seed path : List ℕ) : Except Err PrivateKey := do
  let indices ← parse_path path
  let master_result := hmac_sha512 bitcoinSeedBytes seed
  let master ← mkPrivateKeyBytes (master_result.take 32)
  let chain0 := master_result.drop 32
  let final ← indices.foldlM
    (fun kc index =>
      derive_child_key_with_chain_code serializeC hmac_sha512 kc.1 kc.2 index)
    (master, chain0)
  return final.1

/-- The function `derive_keys` of `keys.cpp` (current, BIP32): amount `i`
of the list gets the key at `derivation_path + "/" + i + "'"`.  The
`unordered_map` result is embedded as the association list in amount-list
order. -/
def derive_keys (mnemonic derivation_path : List ℕ) (amounts : List ℕ) :
    Except Err (List (ℕ × PrivateKey)) :=
  amounts.enum.mapM (fun ia => do
    let full_path := derivation_path ++ 47 :: decimalAscii ia.1 ++ [39]
    let key ← get_privkey_from_path serializeC hmac_sha512 mnemonic full_path
    return (ia.2, key))

/-- The function `derive_keys_deprecated_pre_0_15` of `keys.cpp`: key `i` is
the raw 32-byte digest `SHA256(seed ‖ path ‖ str(i))`. -/
def derive_keys_deprecated_pre_0_15 (seed : List ℕ) (amounts : List ℕ)
    (derivation_path : List ℕ) : Except Err (List (ℕ × PrivateKey)) :=
  amounts.enum.mapM (fun ia => do
    let hash := sha256 (seed ++ derivation_path ++ decimalAscii ia.1)
    let key ← mkPrivateKeyBytes (hash.take 32)
    return (ia.2, key))

/-- The fixed amount list of the pre-0.12 derivation
(`vector<cpp_int> fixed_amounts = {1, 2, 4, 8, 16, 32}`). -/
def fixedAmountsPre012 : List ℕ := [1, 2, 4, 8, 16, 32]

/-- The per-index key bytes of the pre-0.12 derivation (the body of its
loop in `keys.cpp`): the first 32 bytes of the ASCII hex digest — not the
raw digest — of `SHA256(seed ‖ path ‖ str(i))`, zero-padded if shorter
than 32 bytes (which a 64-character hex digest never is). -/
def insecureKeyBytes (seed derivation_path : List ℕ) (i : ℕ) : List ℕ :=
  let hash_bytes := sha256 (seed ++ derivation_path ++ decimalAscii i)
  let hex_digest := bytesToHexAscii hash_bytes
  let taken := hex_digest.take 32
  if taken.length < 32 then taken ++ List.replicate (32 - taken.length) 0
  else taken

/-- The function `derive_keys_backwards_compatible_insecure_pre_0_12` of
`keys.cpp`: ignore the caller's amounts and use the fixed set; key `i` is
`PrivateKey(insecureKeyBytes(seed, path, i))`. -/
def derive_keys_backwards_compatible_insecure_pre_0_12 (seed : List ℕ)
    (derivation_path : List ℕ) : Except Err (List (ℕ × PrivateKey)) :=
  fixedAmountsPre012.enum.mapM (fun ia => do
    let key ← mkPrivateKeyBytes (insecureKeyBytes sha256 seed derivation_path ia.1)
    return (ia.2, key))

/-- The function `derive_keyset_id` of `keys.cpp`: sort the amount→point map
by amount, concatenate the compressed serializations, SHA-256, and return
`"00"` followed by the first 14 hex characters (as ASCII bytes; 48 = `'0'`).
The C++ `std::sort` on `pair<cpp_int, PublicKey>` orders by amount first and
breaks ties on the point; an `unordered_map` has distinct amounts, so the
tie-break never fires and sorting by amount alone is faithful. -/
def derive_keyset_id (keys : List (ℕ × Point)) : List ℕ :=
  let sorted_keys := keys.insertionSort (fun x y => x.1 ≤ y.1)
  let pubkeys_concat := (sorted_keys.map (fun kv => serializeC kv.2)).flatten
  let hash := sha256 pubkeys_concat
  48 :: 48 :: (bytesToHexAscii hash).take 14

/-- The function `parse_version` of `keys.cpp`: strip a leading `v`
(ASCII 118), split on `.` (ASCII 46), `stoi` each non-empty segment
(propagating its failure), and default missing components to 0. -/
def parse_version (version_str : List ℕ) : Except Err (ℕ × ℕ × ℕ) := do
  let clean := if version_str.head? = some 118 then version_str.drop 1 else version_str
  let segs := (clean.splitOn 46).filterMap
    (fun seg => if seg = [] then none else some seg)
  let parts ← segs.mapM (fun seg =>
    match leadingDecimal seg with
    | some n => Except.ok n
    | none => Except.error Err.unsupportedVersion)
  return (parts.getD 0 0, parts.getD 1 0, parts.getD 2 0)

/-- Lexicographic comparison `VersionTuple::operator<` of `keys.hpp`. -/
def versionLt (a b : ℕ × ℕ × ℕ) : Prop :=
  a.1 < b.1 ∨ (a.1 = b.1 ∧ (a.2.1 < b.2.1 ∨ (a.2.1 = b.2.1 ∧ a.2.2 < b.2.2)))

instance (a b : ℕ × ℕ × ℕ) : Decidable (versionLt a b) := by
  unfold versionLt; infer_instance

/-- The function `derive_keys_version_aware` of `keys.cpp`: pre-0.12 the
insecure fixed-amount method, pre-0.15 the raw-SHA256 method, otherwise
BIP32. -/
def derive_keys_version_aware (seed_or_mnemonic derivation_path : List ℕ)
    (amounts : List ℕ) (version : List ℕ) :
    Except Err (List (ℕ × PrivateKey)) := do
  let version_tuple ← parse_version version
  if versionLt version_tuple (0, 12, 0) then
    derive_keys_backwards_compatible_insecure_pre_0_12 sha256 seed_or_mnemonic
      derivation_path
  else if versionLt version_tuple (0, 15, 0) then
    derive_keys_deprecated_pre_0_15 sha256 seed_or_mnemonic amounts
      derivation_path
  else
    derive_keys serializeC hmac_sha512 seed_or_mnemonic derivation_path amounts

/-! ## Helper lemmas -/

theorem natCast_ne_zero_of_range {v : ℕ} (h1 : 0 < v) (h2 : v < CURVE_ORDER) :
    (v : Point) ≠ 0 := by
  intro hc
  rw [ZMod.natCast_zmod_eq_zero_iff_dvd] at hc
  exact absurd (Nat.le_of_dvd h1 hc) (by omega)

theorem pubkey_ne_zero (k : PrivateKey) : k.pubkey ≠ 0 :=
  natCast_ne_zero_of_range k.2.1 k.2.2

theorem pubMult_ok (P : Point) (k : PrivateKey) :
    pubMult P k = .ok ((k.val : Point) * P) := by
  have hm : k.val % CURVE_ORDER = k.val := Nat.mod_eq_of_lt k.2.2
  simp only [pubMult, pubTweakMul, hm]
  rw [if_neg (by omega)]

theorem pubAdd_ok {P Q : Point} (h : P + Q ≠ 0) : pubAdd P Q = .ok (P + Q) := by
  simp [pubAdd, h]

theorem pubSub_ok {P Q : Point} (h : P - Q ≠ 0) : pubSub P Q = .ok (P - Q) := by
  have h2 : ¬P + -Q = 0 := by rwa [← sub_eq_add_neg]
  simp only [pubSub, pubNeg, pubAdd, if_neg h2, sub_eq_add_neg]

theorem length_natToBytesBE (w v : ℕ) : (natToBytesBE w v).length = w := by
  induction w generalizing v with
  | zero => rfl
  | succ w ih => simp [natToBytesBE, ih]

theorem mem_natToBytesBE_lt {w v b : ℕ} (hb : b ∈ natToBytesBE w v) : b < 256 := by
  induction w generalizing v with
  | zero => simp [natToBytesBE] at hb
  | succ w ih =>
    simp only [natToBytesBE, List.mem_append, List.mem_singleton] at hb
    rcases hb with hb | hb
    · exact ih hb
    · omega

theorem bytesToNatBE_append_singleton (l : List ℕ) (b : ℕ) :
    bytesToNatBE (l ++ [b]) = 256 * bytesToNatBE l + b := by
  simp [bytesToNatBE, List.foldl_append, Nat.mul_comm]

theorem bytesToNatBE_natToBytesBE (w v : ℕ) :
    bytesToNatBE (natToBytesBE w v) = v % 256 ^ w := by
  induction w generalizing v with
  | zero => simp [natToBytesBE, bytesToNatBE, Nat.mod_one]
  | succ w ih =>
    rw [natToBytesBE, bytesToNatBE_append_singleton, ih, pow_succ,
      Nat.mul_comm (256 ^ w) 256, Nat.mod_mul]
    ring

theorem natToBytesBE_bytesToNatBE {bs : List ℕ} (hb : ∀ b ∈ bs, b < 256) :
    natToBytesBE bs.length (bytesToNatBE bs) = bs := by
  induction bs using List.reverseRecOn with
  | nil => rfl
  | append_singleton l a ih =>
    have ha : a < 256 := hb a (by simp)
    have hl : ∀ b ∈ l, b < 256 := fun b hbl => hb b (by simp [hbl])
    rw [bytesToNatBE_append_singleton]
    have hlen : (l ++ [a]).length = l.length + 1 := by simp
    rw [hlen, natToBytesBE]
    have hdiv : (256 * bytesToNatBE l + a) / 256 = bytesToNatBE l := by omega
    have hmod : (256 * bytesToNatBE l + a) % 256 = a := by omega
    rw [hdiv, hmod, ih hl]

theorem mkPrivateKeyBytes_ok {bs : List ℕ} (hlen : bs.length = 32)
    (h1 : 0 < bytesToNatBE bs) (h2 : bytesToNatBE bs < CURVE_ORDER) :
    mkPrivateKeyBytes bs = .ok ⟨bytesToNatBE bs, h1, h2⟩ := by
  simp [mkPrivateKeyBytes, hlen, mkPrivateKeyNat, h1, h2]

theorem mkPrivateKeyBytes_serialize (k : PrivateKey) :
    mkPrivateKeyBytes k.serialize = .ok k := by
  have hlen : k.serialize.length = 32 := length_natToBytesBE 32 k.val
  have hval : bytesToNatBE k.serialize = k.val := by
    rw [PrivateKey.serialize, bytesToNatBE_natToBytesBE]
    exact Nat.mod_eq_of_lt (lt_trans k.2.2 (by norm_num [CURVE_ORDER]))
  rw [mkPrivateKeyBytes, if_pos hlen, hval, mkPrivateKeyNat, dif_pos k.2]

theorem serialize_of_mkPrivateKeyBytes {bs : List ℕ} {k : PrivateKey}
    (hlen : bs.length = 32) (hb : ∀ b ∈ bs, b < 256)
    (h : mkPrivateKeyBytes bs = .ok k) : k.serialize = bs := by
  rw [mkPrivateKeyBytes, if_pos hlen, mkPrivateKeyNat] at h
  split at h
  · cases h
    rw [PrivateKey.serialize]
    have := natToBytesBE_bytesToNatBE hb
    rwa [hlen] at this
  · cases h

theorem exceptBind_ok {α β : Type} (x : α) (f : α → Except Err β) :
    (Except.ok x : Except Err α) >>= f = f x := rfl

theorem exceptBind_err {α β : Type} (e : Err) (f : α → Except Err β) :
    (Except.error e : Except Err α) >>= f = .error e := rfl

theorem pubAdd_eq_ok {P Q R : Point} (h : pubAdd P Q = .ok R) :
    R = P + Q ∧ P + Q ≠ 0 := by
  rw [pubAdd] at h
  split at h
  · cases h
  · cases h; exact ⟨rfl, by assumption⟩

theorem pubSub_eq_ok {P Q R : Point} (h : pubSub P Q = .ok R) :
    R = P - Q ∧ P - Q ≠ 0 := by
  rw [pubSub, pubNeg] at h
  have h2 := pubAdd_eq_ok h
  rw [← sub_eq_add_neg] at h2
  exact h2

theorem mkPrivateKeyNat_eq_ok {v : ℕ} {k : PrivateKey}
    (h : mkPrivateKeyNat v = .ok k) : k.val = v ∧ 0 < v ∧ v < CURVE_ORDER := by
  rw [mkPrivateKeyNat] at h
  split at h
  · cases h; exact ⟨rfl, by assumption⟩
  · cases h

theorem mkPrivateKeyBytes_eq_ok {bs : List ℕ} {k : PrivateKey}
    (h : mkPrivateKeyBytes bs = .ok k) :
    bs.length = 32 ∧ k.val = bytesToNatBE bs := by
  rw [mkPrivateKeyBytes] at h
  split at h
  · exact ⟨by assumption, (mkPrivateKeyNat_eq_ok h).1⟩
  · cases h

/-! ## Claim theorems -/

/-- C1.  BDHKE round trip: for every secret string and valid issuer scalar
`a`, with `(B', r) = step1_alice(secret, r)` (any valid blinding factor),
`C'` the blinded signature of `step2_bob(B', a)` and
`C = step3_alice(C', r, pubkey(a))`, the unblinded result satisfies
`C = a · hash_to_curve(secret)` and `verify(a, C, secret)` returns true
(at every fuel of the legacy fallback, which is never consulted). -/
theorem c1_bdhke_round_trip (sha256 : List ℕ → List ℕ)
    (parsePoint : List ℕ → Option Point) (serializeU : Point → List ℕ)
    (secret_msg : List ℕ) (r a rnd : PrivateKey) (B_ C_ C : Point)
    (e s : PrivateKey)
    (h1 : step1_alice sha256 parsePoint secret_msg (some r) r = .ok (B_, r))
    (h2 : step2_bob sha256 serializeU B_ a rnd = .ok (C_, e, s))
    (h3 : step3_alice C_ r a.pubkey = .ok C) :
    ∃ Y, hash_to_curve sha256 parsePoint secret_msg = .ok Y ∧
      C = (a.val : Point) * Y ∧
      ∀ depFuel, verify sha256 parsePoint depFuel a C secret_msg = .ok true := by
  cases hY : hash_to_curve sha256 parsePoint secret_msg with
  | error err => rw [step1_alice, hY, exceptBind_err] at h1; cases h1
  | ok Y =>
    rw [step1_alice, hY, exceptBind_ok] at h1
    simp only [Option.getD_some] at h1
    cases hB : pubAdd Y (PrivateKey.pubkey r) with
    | error err => rw [hB, exceptBind_err] at h1; cases h1
    | ok B0 =>
      rw [hB, exceptBind_ok] at h1
      have hB0 : B0 = Y + (r.val : Point) := (pubAdd_eq_ok hB).1
      have hBB : B_ = Y + (r.val : Point) := by
        cases h1; exact hB0
      rw [step2_bob, pubMult_ok, exceptBind_ok] at h2
      cases hes : step2_bob_dleq sha256 serializeU B_ a [] rnd with
      | error err => rw [hes, exceptBind_err] at h2; cases h2
      | ok es =>
        rw [hes, exceptBind_ok] at h2
        have hC_ : C_ = (a.val : Point) * B_ := by
          cases h2; rfl
        rw [step3_alice, pubMult_ok, exceptBind_ok] at h3
        have h4 := pubSub_eq_ok h3
        have hC : C = (a.val : Point) * Y := by
          rw [h4.1, hC_, hBB, PrivateKey.pubkey]; ring
        refine ⟨Y, rfl, hC, fun depFuel => ?_⟩
        rw [verify, hY, exceptBind_ok, pubMult_ok, exceptBind_ok, if_pos hC]
        rfl

/-! ### Concrete instantiations used by the witnesses

The abstract external collaborators are instantiated by small total
functions; the theorems hold for every instantiation, so any concrete choice
that satisfies the stated hypotheses exercises them. -/

/-- Witness stand-in for SHA-256: every digest is the 32-byte big-endian
encoding of 1. -/
def shaOne : List ℕ → List ℕ := fun _ => List.replicate 31 0 ++ [1]

/-- Witness stand-in for uncompressed/compressed serialization. -/
def serNil : Point → List ℕ := fun _ => []

/-- Witness stand-in for point parsing: everything decodes to the point with
discrete logarithm 5. -/
def parseFive : List ℕ → Option Point := fun _ => some 5

/-- Witness stand-in for HMAC-SHA512: a constant 64-byte block. -/
def hmacConst : List ℕ → List ℕ → List ℕ := fun _ _ => List.replicate 63 0 ++ [1]

/-- Concrete valid scalar 1. -/
def key1 : PrivateKey := ⟨1, by decide⟩

/-- Concrete valid scalar 2. -/
def key2 : PrivateKey := ⟨2, by decide⟩

/-- Concrete valid scalar 3. -/
def key3 : PrivateKey := ⟨3, by decide⟩

/-- Concrete valid scalar 5. -/
def key5 : PrivateKey := ⟨5, by decide⟩

/-- Concrete valid scalar 7. -/
def key7 : PrivateKey := ⟨7, by decide⟩

/-- Witness for C1 at a concrete instantiation: secret `[]`, blinding
factor 7, issuer scalar 3, DLEQ nonce 2; the hash-to-curve point is 5, so
the unblinded signature is `15 = 3·5`. -/
theorem c1_bdhke_round_trip_witness :
    ∃ Y, hash_to_curve shaOne parseFive [] = .ok Y ∧
      (15 : Point) = ((key3.val : ℕ) : Point) * Y ∧
      ∀ depFuel, verify shaOne parseFive depFuel key3 15 [] = .ok true :=
  c1_bdhke_round_trip shaOne parseFive serNil [] key7 key3 key2 12 36 15
    key1 key5 (by decide) (by decide) (by decide)

/-- C7.  Scalar range validation: construction of a `PrivateKey` from a
big integer succeeds exactly on `[1, CURVE_ORDER)` (boundary
`CURVE_ORDER - 1` succeeds, 0 and anything from `CURVE_ORDER` up fail with
the invalid-scalar error); the 32-byte and well-formed-hex constructors
reduce to the big-integer form on the big-endian encoded value. -/
theorem c7_scalar_range_validation :
    (∀ v : ℕ, (∃ k, mkPrivateKeyNat v = .ok k ∧ k.val = v) ↔
      0 < v ∧ v < CURVE_ORDER)
    ∧ (∃ k, mkPrivateKeyNat (CURVE_ORDER - 1) = .ok k ∧
        k.val = CURVE_ORDER - 1)
    ∧ mkPrivateKeyNat 0 = .error .invalidScalar
    ∧ (∀ m : ℕ, mkPrivateKeyNat (CURVE_ORDER + m) = .error .invalidScalar)
    ∧ (∀ bs : List ℕ, bs.length = 32 →
        ((∃ k, mkPrivateKeyBytes bs = .ok k ∧ k.val = bytesToNatBE bs) ↔
          0 < bytesToNatBE bs ∧ bytesToNatBE bs < CURVE_ORDER))
    ∧ (∀ s bs, hex_to_bytes s = some bs →
        mkPrivateKeyHex s = mkPrivateKeyBytes bs) := by
  have hnat : ∀ v : ℕ, (∃ k, mkPrivateKeyNat v = .ok k ∧ k.val = v) ↔
      0 < v ∧ v < CURVE_ORDER := by
    intro v
    constructor
    · rintro ⟨k, hk, hv⟩
      have := mkPrivateKeyNat_eq_ok hk
      omega
    · intro h
      exact ⟨⟨v, h⟩, by rw [mkPrivateKeyNat, dif_pos h], rfl⟩
  refine ⟨hnat, ?_, ?_, ?_, ?_, ?_⟩
  · exact (hnat _).mpr (by constructor <;> norm_num [CURVE_ORDER])
  · rw [mkPrivateKeyNat, dif_neg (by omega)]
  · intro m; rw [mkPrivateKeyNat, dif_neg (by omega)]
  · intro bs hlen
    rw [mkPrivateKeyBytes, if_pos hlen]
    exact hnat _
  · intro s bs h
    rw [mkPrivateKeyHex, h]

/-- C8.  Public-key homomorphism: for all valid scalars `a`, `b` whose
public points do not add to the point at infinity (on the real curve this
only fails when `a + b ≡ 0 (mod n)`, where both sides of the claimed
equation throw), `pubkey(a) + pubkey(b) = pubkey((a + b) mod n)`. -/
theorem c8_pubkey_homomorphism (a b : PrivateKey)
    (h : a.pubkey + b.pubkey ≠ 0) :
    ∃ k, mkPrivateKeyNat ((a.val + b.val) % CURVE_ORDER) = .ok k ∧
      pubAdd a.pubkey b.pubkey = .ok k.pubkey := by
  have hcast : (((a.val + b.val) % CURVE_ORDER : ℕ) : Point)
      = a.pubkey + b.pubkey := by
    rw [ZMod.natCast_mod]
    push_cast
    rfl
  have hpos : 0 < (a.val + b.val) % CURVE_ORDER := by
    rcases Nat.eq_zero_or_pos ((a.val + b.val) % CURVE_ORDER) with h0 | h0
    · exact absurd (by rw [← hcast, h0, Nat.cast_zero]) h
    · exact h0
  have hlt : (a.val + b.val) % CURVE_ORDER < CURVE_ORDER :=
    Nat.mod_lt _ (by norm_num [CURVE_ORDER])
  refine ⟨⟨(a.val + b.val) % CURVE_ORDER, hpos, hlt⟩, ?_, ?_⟩
  · rw [mkPrivateKeyNat, dif_pos ⟨hpos, hlt⟩]
  · rw [pubAdd, if_neg h]
    exact congrArg Except.ok hcast.symm

/-- Witness for C8 at `a = 3`, `b = 5`: `3G + 5G = 8G`. -/
theorem c8_pubkey_homomorphism_witness :
    ∃ k, mkPrivateKeyNat ((key3.val + key5.val) % CURVE_ORDER) = .ok k ∧
      pubAdd key3.pubkey key5.pubkey = .ok k.pubkey :=
  c8_pubkey_homomorphism key3 key5 (by decide)

theorem htcLoop_ok_iff (sha256 : List ℕ → List ℕ)
    (parsePoint : List ℕ → Option Point) (msgHash : List ℕ) (P : Point) :
    ∀ (fuel c0 : ℕ),
      htcLoop sha256 parsePoint msgHash c0 fuel = .ok P ↔
        ∃ i, i < fuel ∧
          parsePoint (0x02 :: sha256 (msgHash ++ uint32_to_le_bytes (c0 + i)))
            = some P ∧
          ∀ j, j < i →
            parsePoint (0x02 :: sha256 (msgHash ++ uint32_to_le_bytes (c0 + j)))
              = none := by
  intro fuel
  induction fuel with
  | zero => intro c0; simp [htcLoop]
  | succ fuel ih =>
    intro c0
    rw [htcLoop]
    cases hc : parsePoint (0x02 :: sha256 (msgHash ++ uint32_to_le_bytes c0)) with
    | some Q =>
      simp only [hc]
      constructor
      · intro h
        refine ⟨0, by omega, ?_, fun j hj => absurd hj (Nat.not_lt_zero j)⟩
        rw [Nat.add_zero, hc]
        cases h
        rfl
      · rintro ⟨i, hi, hsome, hnone⟩
        cases i with
        | zero =>
          rw [Nat.add_zero, hc] at hsome
          cases hsome
          rfl
        | succ i =>
          have h0 := hnone 0 (Nat.succ_pos i)
          rw [Nat.add_zero, hc] at h0
          cases h0
    | none =>
      simp only [hc]
      rw [ih (c0 + 1)]
      constructor
      · rintro ⟨i, hi, hsome, hnone⟩
        refine ⟨i + 1, by omega, ?_, ?_⟩
        · rw [show c0 + (i + 1) = c0 + 1 + i by omega]
          exact hsome
        · intro j hj
          cases j with
          | zero => rw [Nat.add_zero]; exact hc
          | succ j =>
            rw [show c0 + (j + 1) = c0 + 1 + j by omega]
            exact hnone j (by omega)
      · rintro ⟨i, hi, hsome, hnone⟩
        cases i with
        | zero =>
          rw [Nat.add_zero, hc] at hsome
          cases hsome
        | succ i =>
          refine ⟨i, by omega, ?_, ?_⟩
          · rw [show c0 + 1 + i = c0 + (i + 1) by omega]
            exact hsome
          · intro j hj
            rw [show c0 + 1 + j = c0 + (j + 1) by omega]
            exact hnone (j + 1) (by omega)

theorem htcLoop_err_iff (sha256 : List ℕ → List ℕ)
    (parsePoint : List ℕ → Option Point) (msgHash : List ℕ) :
    ∀ (fuel c0 : ℕ),
      htcLoop sha256 parsePoint msgHash c0 fuel = .error .hashToCurveExhausted ↔
        ∀ i, i < fuel →
          parsePoint (0x02 :: sha256 (msgHash ++ uint32_to_le_bytes (c0 + i)))
            = none := by
  intro fuel
  induction fuel with
  | zero => intro c0; simp [htcLoop]
  | succ fuel ih =>
    intro c0
    rw [htcLoop]
    cases hc : parsePoint (0x02 :: sha256 (msgHash ++ uint32_to_le_bytes c0)) with
    | some Q =>
      simp only [hc]
      constructor
      · intro h; cases h
      · intro h
        have h0 := h 0 (by omega)
        rw [Nat.add_zero, hc] at h0
        cases h0
    | none =>
      simp only [hc]
      rw [ih (c0 + 1)]
      constructor
      · intro h i hi
        cases i with
        | zero => rw [Nat.add_zero]; exact hc
        | succ i =>
          rw [show c0 + (i + 1) = c0 + 1 + i by omega]
          exact h i (by omega)
      · intro h i hi
        rw [show c0 + 1 + i = c0 + (i + 1) by omega]
        exact h (i + 1) (by omega)

/-- C4.  Hash-to-curve algorithm: `hash_to_curve(m)` hashes
`DOMAIN_SEPARATOR ‖ m`, then returns the point parsed from
`0x02 ‖ SHA256(h ‖ counter_le32)` for the smallest little-endian 32-bit
counter 0, 1, 2, … that yields a point on the curve; at most `2^16`
counters are tried and if none parses the result is the fatal
hash-to-curve-exhausted error. -/
theorem c4_hash_to_curve_alg (sha256 : List ℕ → List ℕ)
    (parsePoint : List ℕ → Option Point) (message : List ℕ) :
    (∀ P, hash_to_curve sha256 parsePoint message = .ok P ↔
      ∃ c, c < 2 ^ 16 ∧
        parsePoint (0x02 :: sha256 (sha256 (DOMAIN_SEPARATOR ++ message) ++
          uint32_to_le_bytes c)) = some P ∧
        ∀ c', c' < c →
          parsePoint (0x02 :: sha256 (sha256 (DOMAIN_SEPARATOR ++ message) ++
            uint32_to_le_bytes c')) = none)
    ∧ (hash_to_curve sha256 parsePoint message = .error .hashToCurveExhausted ↔
      ∀ c, c < 2 ^ 16 →
        parsePoint (0x02 :: sha256 (sha256 (DOMAIN_SEPARATOR ++ message) ++
          uint32_to_le_bytes c)) = none) := by
  constructor
  · intro P
    rw [hash_to_curve, htcLoop_ok_iff]
    simp only [Nat.zero_add]
  · rw [hash_to_curve, htcLoop_err_iff]
    simp only [Nat.zero_add]

/-- C3.  Verification fallback: given that the current hash-to-curve
succeeds with `Y`, `verify(a, C, m)` returns true exactly when
`C = a·Y` or `C = a·Yd` for the legacy hash-to-curve value `Yd`; when the
current check already holds the result is true without consulting the
legacy variant at all (any fuel, even one on which the legacy loop would
fail), and only when it fails does `verify` reduce to `verify_deprecated`. -/
theorem c3_verify_fallback (sha256 : List ℕ → List ℕ)
    (parsePoint : List ℕ → Option Point) (a : PrivateKey) (C Y : Point)
    (secret_msg : List ℕ)
    (hY : hash_to_curve sha256 parsePoint secret_msg = .ok Y) :
    (∀ depFuel, verify sha256 parsePoint depFuel a C secret_msg = .ok true ↔
      (C = (a.val : Point) * Y ∨
        ∃ Yd, hash_to_curve_deprecated sha256 parsePoint depFuel secret_msg
            = .ok Yd ∧ C = (a.val : Point) * Yd))
    ∧ (C = (a.val : Point) * Y →
        ∀ depFuel, verify sha256 parsePoint depFuel a C secret_msg = .ok true)
    ∧ (C ≠ (a.val : Point) * Y →
        ∀ depFuel, verify sha256 parsePoint depFuel a C secret_msg
          = verify_deprecated sha256 parsePoint depFuel a C secret_msg) := by
  have hver : ∀ depFuel, verify sha256 parsePoint depFuel a C secret_msg
      = if C = (a.val : Point) * Y then .ok true
        else verify_deprecated sha256 parsePoint depFuel a C secret_msg := by
    intro depFuel
    rw [verify, hY, exceptBind_ok, pubMult_ok, exceptBind_ok]
    split <;> rfl
  refine ⟨?_, ?_, ?_⟩
  · intro depFuel
    rw [hver]
    by_cases hC : C = (a.val : Point) * Y
    · rw [if_pos hC]
      constructor
      · intro _; exact Or.inl hC
      · intro _; rfl
    · rw [if_neg hC, verify_deprecated]
      cases hYd : hash_to_curve_deprecated sha256 parsePoint depFuel secret_msg with
      | error err =>
        rw [exceptBind_err]
        constructor
        · intro h; cases h
        · rintro (h | ⟨Yd, hYd2, _⟩)
          · exact absurd h hC
          · cases hYd2
      | ok Yd =>
        rw [exceptBind_ok, pubMult_ok, exceptBind_ok]
        constructor
        · intro h
          exact Or.inr ⟨Yd, rfl, of_decide_eq_true (Except.ok.inj h)⟩
        · rintro (h | ⟨Yd2, hYd2, hc2⟩)
          · exact absurd h hC
          · cases hYd2
            exact congrArg Except.ok (decide_eq_true hc2)
  · intro hC depFuel
    rw [hver, if_pos hC]
  · intro hC depFuel
    rw [hver, if_neg hC]

/-- Witness for C3: hash-to-curve point 5, issuer scalar 3, `C = 15`; the
current-variant check succeeds, so `verify` is true already at legacy fuel
0 (where the legacy loop would error). -/
theorem c3_verify_fallback_witness :
    verify shaOne parseFive 0 key3 15 [] = .ok true :=
  (c3_verify_fallback shaOne parseFive key3 15 5 [] (by decide)).2.1 (by decide) 0

theorem serialize_ne_nil (k : PrivateKey) : k.serialize ≠ [] := by
  intro hc
  have := length_natToBytesBE 32 k.val
  rw [PrivateKey.serialize] at hc
  rw [hc] at this
  cases this

/-- C2.  DLEQ completeness: the proof `(e, s)` produced by
`step2_bob_dleq(B', a, p)` (deterministic nonce `p`, supplied as its
32-byte serialization) passes `alice_verify_dleq(B', a·B', e, s, pubkey a)`,
and the challenge `e` (as its 32-byte serialization) is exactly
`hash_e(R1, R2, A, C') = SHA256(hex(R1) ‖ hex(R2) ‖ hex(A) ‖ hex(C'))` over
the lowercase-hex uncompressed encodings with `R1 = p·G`, `R2 = p·B'`,
`A = pubkey a`, `C' = a·B'`.  `hsha` states that the hash is a 32-byte
digest; `hpB` states that `p·B'` is not the point at infinity (automatic on
the real curve for a valid point `B'` since the group order is prime). -/
theorem c2_dleq_completeness (sha256 : List ℕ → List ℕ)
    (serializeU : Point → List ℕ) (B_ : Point) (a p e s : PrivateKey)
    (hsha : ∀ x, (sha256 x).length = 32 ∧ ∀ b ∈ sha256 x, b < 256)
    (h : step2_bob_dleq sha256 serializeU B_ a p.serialize p = .ok (e, s))
    (hpB : (p.val : Point) * B_ ≠ 0) :
    alice_verify_dleq sha256 serializeU B_ ((a.val : Point) * B_) e s
      a.pubkey = .ok true
    ∧ e.serialize = hash_e sha256 serializeU p.pubkey ((p.val : Point) * B_)
        a.pubkey ((a.val : Point) * B_) := by
  rw [step2_bob_dleq, if_pos (serialize_ne_nil p), mkPrivateKeyBytes_serialize] at h
  simp only [exceptBind_ok, pubMult_ok] at h
  cases he : mkPrivateKeyBytes (hash_e sha256 serializeU p.pubkey
      ((p.val : Point) * B_) a.pubkey ((a.val : Point) * B_)) with
  | error err =>
    rw [he, exceptBind_err] at h
    cases h
  | ok e0 =>
    rw [he, exceptBind_ok] at h
    cases hae : a.tweak_mul e0.val with
    | error err => rw [hae, exceptBind_err] at h; cases h
    | ok ae =>
      rw [hae, exceptBind_ok] at h
      cases hs : p.tweak_add ae.val with
      | error err => rw [hs, exceptBind_err] at h; cases h
      | ok s0 =>
        rw [hs, exceptBind_ok] at h
        have hinj := Except.ok.inj h
        rw [Prod.mk.injEq] at hinj
        obtain ⟨he0, hs0⟩ := hinj
        rw [← he0, ← hs0]
        -- digest well-formedness
        have hlen : (hash_e sha256 serializeU p.pubkey ((p.val : Point) * B_)
            a.pubkey ((a.val : Point) * B_)).length = 32 := by
          rw [hash_e]; exact (hsha _).1
        have hmem : ∀ b ∈ hash_e sha256 serializeU p.pubkey
            ((p.val : Point) * B_) a.pubkey ((a.val : Point) * B_),
            b < 256 := by
          rw [hash_e]; exact (hsha _).2
        have hser : e0.serialize = hash_e sha256 serializeU p.pubkey
            ((p.val : Point) * B_) a.pubkey ((a.val : Point) * B_) :=
          serialize_of_mkPrivateKeyBytes hlen hmem he
        -- the scalar equation s = p + e·a as residues
        have haev : ae.val = (a.val * e0.val) % CURVE_ORDER :=
          (mkPrivateKeyNat_eq_ok hae).1
        have hsv : s0.val = (p.val + ae.val) % CURVE_ORDER :=
          (mkPrivateKeyNat_eq_ok hs).1
        have hcast : (s0.val : Point)
            = (p.val : Point) + (a.val : Point) * (e0.val : Point) := by
          rw [hsv, ZMod.natCast_mod, Nat.cast_add, haev, ZMod.natCast_mod,
            Nat.cast_mul]
        -- the two recomputed commitments
        have keyR1 : s0.pubkey - (e0.val : Point) * a.pubkey = p.pubkey := by
          rw [PrivateKey.pubkey, PrivateKey.pubkey, PrivateKey.pubkey, hcast]
          ring
        have keyR2 : (s0.val : Point) * B_
            - (e0.val : Point) * ((a.val : Point) * B_)
            = (p.val : Point) * B_ := by
          rw [hcast]; ring
        constructor
        · rw [alice_verify_dleq, pubMult_ok, exceptBind_ok,
            pubSub_ok (by rw [keyR1]; exact pubkey_ne_zero p), keyR1,
            exceptBind_ok, pubMult_ok, exceptBind_ok, pubMult_ok,
            exceptBind_ok,
            pubSub_ok (by rw [keyR2]; exact hpB), keyR2, exceptBind_ok]
          rw [hser]
          exact congrArg Except.ok (decide_eq_true rfl)
        · exact hser

theorem shaOne_wf : ∀ x, (shaOne x).length = 32 ∧ ∀ b ∈ shaOne x, b < 256 := by
  intro x
  refine ⟨by simp [shaOne], ?_⟩
  intro b hb
  simp only [shaOne, List.mem_append, List.mem_replicate, List.mem_singleton] at hb
  rcases hb with ⟨_, hb⟩ | hb <;> omega

/-- Witness for C2 at `B' = 5G`, `a = 3`, `p = 2`: the digest stand-in makes
`e = 1`, so `s = p + e·a = 5`. -/
theorem c2_dleq_completeness_witness :
    alice_verify_dleq shaOne serNil 5 (((key3.val : ℕ) : Point) * 5) key1 key5
      key3.pubkey = .ok true
    ∧ key1.serialize = hash_e shaOne serNil key2.pubkey
        (((key2.val : ℕ) : Point) * 5) key3.pubkey
        (((key3.val : ℕ) : Point) * 5) :=
  c2_dleq_completeness shaOne serNil 5 key3 key2 key1 key5 shaOne_wf
    (by decide) (by decide)

/-- C6.  Keyset identifier stability: `derive_keyset_id` (the `"00"` +
first-14-hex-characters-of-SHA-256 format over amount-sorted compressed
serializations) is invariant under re-ordering its amount→point input;
since it consumes only the public points, keysets differing in private
scalars but agreeing on the points per amount get the same identifier.
The distinct-amount hypothesis is the key-uniqueness invariant of the C++
`unordered_map` argument. -/
theorem c6_keyset_id_stability (sha256 : List ℕ → List ℕ)
    (serializeC : Point → List ℕ) (keys1 keys2 : List (ℕ × Point))
    (hnd : (keys1.map Prod.fst).Nodup) (hperm : keys1.Perm keys2) :
    derive_keyset_id sha256 serializeC keys1
      = derive_keyset_id sha256 serializeC keys2 := by
  suffices hs : keys1.insertionSort (fun x y => x.1 ≤ y.1)
      = keys2.insertionSort (fun x y => x.1 ≤ y.1) by
    rw [derive_keyset_id, derive_keyset_id, hs]
  haveI : IsTotal (ℕ × Point) (fun x y => x.1 ≤ y.1) :=
    ⟨fun a b => Nat.le_total a.1 b.1⟩
  haveI : IsTrans (ℕ × Point) (fun x y => x.1 ≤ y.1) :=
    ⟨fun _ _ _ hab hbc => le_trans hab hbc⟩
  have hsort1 := List.sorted_insertionSort (fun x y => x.1 ≤ y.1) keys1
  have hsort2 := List.sorted_insertionSort (fun x y => x.1 ≤ y.1) keys2
  have hp1 := List.perm_insertionSort (fun x y => x.1 ≤ y.1) keys1
  have hp2 := List.perm_insertionSort (fun x y => x.1 ≤ y.1) keys2
  have hperm2 := hp1.trans (hperm.trans hp2.symm)
  have hnd1 : ((keys1.insertionSort (fun x y => x.1 ≤ y.1)).map Prod.fst).Nodup :=
    ((hp1.map Prod.fst).symm).nodup hnd
  have hnd2 : ((keys2.insertionSort (fun x y => x.1 ≤ y.1)).map Prod.fst).Nodup :=
    ((hp2.map Prod.fst).symm).nodup ((hperm.map Prod.fst).nodup hnd)
  have hstrict1 : (keys1.insertionSort (fun x y => x.1 ≤ y.1)).Pairwise
      (fun x y => x.1 < y.1) :=
    (hsort1.and (List.pairwise_map.mp hnd1)).imp
      (fun h => lt_of_le_of_ne h.1 h.2)
  have hstrict2 : (keys2.insertionSort (fun x y => x.1 ≤ y.1)).Pairwise
      (fun x y => x.1 < y.1) :=
    (hsort2.and (List.pairwise_map.mp hnd2)).imp
      (fun h => lt_of_le_of_ne h.1 h.2)
  haveI : IsAntisymm (ℕ × Point) (fun x y => x.1 < y.1) :=
    ⟨fun _ _ h1 h2 => absurd (h1.trans h2) (lt_irrefl _)⟩
  exact List.eq_of_perm_of_sorted hperm2 hstrict1 hstrict2

/-- Witness for C6: the two-entry keyset `{1 ↦ 3G, 2 ↦ 7G}` presented in
both orders. -/
theorem c6_keyset_id_stability_witness :
    derive_keyset_id shaOne serNil [(1, (3 : Point)), (2, (7 : Point))]
      = derive_keyset_id shaOne serNil [(2, (7 : Point)), (1, (3 : Point))] :=
  c6_keyset_id_stability shaOne serNil _ _ (by decide) (by decide)

theorem foldl_byteShift (bs : List ℕ) :
    ∀ a, bs.foldl (fun acc b => acc * 256 + b) a
      = a * 256 ^ bs.length + bytesToNatBE bs := by
  induction bs with
  | nil => intro a; simp [bytesToNatBE]
  | cons b t ih =>
    intro a
    show (b :: t).foldl (fun acc b => acc * 256 + b) a = _
    rw [List.foldl_cons, ih (a * 256 + b)]
    have hb : bytesToNatBE (b :: t) = b * 256 ^ t.length + bytesToNatBE t := by
      rw [bytesToNatBE, List.foldl_cons, Nat.zero_mul, Nat.zero_add, ih b]
    rw [hb, List.length_cons, pow_succ]
    ring

theorem bytesToNatBE_cons (b : ℕ) (t : List ℕ) :
    bytesToNatBE (b :: t) = b * 256 ^ t.length + bytesToNatBE t := by
  rw [bytesToNatBE, List.foldl_cons, Nat.zero_mul, Nat.zero_add, foldl_byteShift]

theorem bytesToNatBE_lt {bs : List ℕ} (hb : ∀ b ∈ bs, b < 256) :
    bytesToNatBE bs < 256 ^ bs.length := by
  induction bs with
  | nil => simp [bytesToNatBE]
  | cons b t ih =>
    have hbt : bytesToNatBE t < 256 ^ t.length :=
      ih (fun x hx => hb x (List.mem_cons_of_mem b hx))
    have hbb : b < 256 := hb b (List.mem_cons_self b t)
    rw [bytesToNatBE_cons, List.length_cons, pow_succ]
    nlinarith [pow_pos (show 0 < 256 by norm_num) t.length]

theorem length_bytesToHexAscii (bs : List ℕ) :
    (bytesToHexAscii bs).length = 2 * bs.length := by
  induction bs with
  | nil => rfl
  | cons b t ih =>
    show (List.map _ (b :: t)).flatten.length = _
    rw [List.map_cons, List.flatten_cons]
    simp only [List.length_append, List.length_cons]
    rw [show ((List.map (fun b => [hexDigitAscii (b / 16 % 16),
      hexDigitAscii (b % 16)]) t).flatten).length = 2 * t.length from ih]
    simp; ring

theorem mem_bytesToHexAscii {c : ℕ} {bs : List ℕ}
    (hc : c ∈ bytesToHexAscii bs) : 48 ≤ c ∧ c ≤ 102 := by
  rw [bytesToHexAscii, List.mem_flatten] at hc
  obtain ⟨l, hl, hcl⟩ := hc
  rw [List.mem_map] at hl
  obtain ⟨b, _, rfl⟩ := hl
  have h1 : b / 16 % 16 < 16 := Nat.mod_lt _ (by norm_num)
  have h2 : b % 16 < 16 := Nat.mod_lt _ (by norm_num)
  simp only [List.mem_cons, List.mem_singleton, List.not_mem_nil, or_false] at hcl
  rcases hcl with rfl | rfl <;> rw [hexDigitAscii] <;> split <;> omega

theorem hexPrefix_valid {bs : List ℕ} (hlen : bs.length = 32)
    (hrange : ∀ b ∈ bs, 48 ≤ b ∧ b ≤ 102) :
    0 < bytesToNatBE bs ∧ bytesToNatBE bs < CURVE_ORDER := by
  cases bs with
  | nil => cases hlen
  | cons b t =>
    have ht : t.length = 31 := by simpa using hlen
    have hb := hrange b (List.mem_cons_self b t)
    have htlt : bytesToNatBE t < 256 ^ t.length :=
      bytesToNatBE_lt (fun x hx => by
        have := hrange x (List.mem_cons_of_mem b hx); omega)
    rw [bytesToNatBE_cons, ht]
    rw [ht] at htlt
    constructor
    · have : 0 < 256 ^ 31 := pow_pos (by norm_num) 31
      nlinarith
    · have hup : b * 256 ^ 31 + bytesToNatBE t < 103 * 256 ^ 31 := by
        nlinarith
      calc b * 256 ^ 31 + bytesToNatBE t < 103 * 256 ^ 31 := hup
        _ < CURVE_ORDER := by norm_num [CURVE_ORDER]

theorem insecureKeyBytes_eq (sha256 : List ℕ → List ℕ)
    (hsha : ∀ x, (sha256 x).length = 32 ∧ ∀ b ∈ sha256 x, b < 256)
    (seed derivation_path : List ℕ) (i : ℕ) :
    insecureKeyBytes sha256 seed derivation_path i
      = (bytesToHexAscii (sha256 (seed ++ derivation_path ++
          decimalAscii i))).take 32 := by
  rw [insecureKeyBytes]
  have hl : ((bytesToHexAscii (sha256 (seed ++ derivation_path ++
      decimalAscii i))).take 32).length = 32 := by
    rw [List.length_take, length_bytesToHexAscii, (hsha _).1]; decide
  simp only [hl]
  rw [if_neg (by omega)]

theorem insecureKey_ok (sha256 : List ℕ → List ℕ)
    (hsha : ∀ x, (sha256 x).length = 32 ∧ ∀ b ∈ sha256 x, b < 256)
    (seed derivation_path : List ℕ) (i : ℕ) :
    ∃ k : PrivateKey,
      mkPrivateKeyBytes (insecureKeyBytes sha256 seed derivation_path i)
        = .ok k ∧
      k.val = bytesToNatBE ((bytesToHexAscii (sha256 (seed ++
        derivation_path ++ decimalAscii i))).take 32) := by
  rw [insecureKeyBytes_eq sha256 hsha]
  have hlen : ((bytesToHexAscii (sha256 (seed ++ derivation_path ++
      decimalAscii i))).take 32).length = 32 := by
    rw [List.length_take, length_bytesToHexAscii, (hsha _).1]; decide
  have hrange : ∀ b ∈ (bytesToHexAscii (sha256 (seed ++ derivation_path ++
      decimalAscii i))).take 32, 48 ≤ b ∧ b ≤ 102 :=
    fun b hb => mem_bytesToHexAscii (List.take_subset 32 _ hb)
  obtain ⟨h1, h2⟩ := hexPrefix_valid hlen hrange
  exact ⟨⟨_, h1, h2⟩, mkPrivateKeyBytes_ok hlen h1 h2, rfl⟩

theorem exceptPure {α : Type} (x : α) : (pure x : Except Err α) = Except.ok x := rfl

/-- C5.  Legacy pre-0.12 derivation: whenever the version string parses
below `0.12.0`, version-aware derivation returns the fixed-amount map
`{1, 2, 4, 8, 16, 32}` regardless of the caller's amount list, and the
scalar of the `i`-th amount is built from the first 32 bytes of the ASCII
hex digest text of `SHA256(seed ‖ path ‖ str(i))` — the hex text, not the
raw digest bytes. -/
theorem c5_pre012_derivation (sha256 : List ℕ → List ℕ)
    (serializeC : Point → List ℕ) (hmac_sha512 : List ℕ → List ℕ → List ℕ)
    (seed derivation_path amounts version : List ℕ) (vt : ℕ × ℕ × ℕ)
    (hsha : ∀ x, (sha256 x).length = 32 ∧ ∀ b ∈ sha256 x, b < 256)
    (hv : parse_version version = .ok vt)
    (hlt : versionLt vt (0, 12, 0)) :
    ∃ ks, derive_keys_version_aware sha256 serializeC hmac_sha512 seed
        derivation_path amounts version = .ok ks
      ∧ derive_keys_backwards_compatible_insecure_pre_0_12 sha256 seed
          derivation_path = .ok ks
      ∧ ks.map Prod.fst = [1, 2, 4, 8, 16, 32]
      ∧ ks.map (fun kv => kv.2.val)
          = (List.range 6).map (fun i => bytesToNatBE
              ((bytesToHexAscii (sha256 (seed ++ derivation_path ++
                decimalAscii i))).take 32)) := by
  obtain ⟨k0, hk0, hval0⟩ := insecureKey_ok sha256 hsha seed derivation_path 0
  obtain ⟨k1, hk1, hval1⟩ := insecureKey_ok sha256 hsha seed derivation_path 1
  obtain ⟨k2, hk2, hval2⟩ := insecureKey_ok sha256 hsha seed derivation_path 2
  obtain ⟨k3, hk3, hval3⟩ := insecureKey_ok sha256 hsha seed derivation_path 3
  obtain ⟨k4, hk4, hval4⟩ := insecureKey_ok sha256 hsha seed derivation_path 4
  obtain ⟨k5, hk5, hval5⟩ := insecureKey_ok sha256 hsha seed derivation_path 5
  have hins : derive_keys_backwards_compatible_insecure_pre_0_12 sha256 seed
      derivation_path
      = .ok [(1, k0), (2, k1), (4, k2), (8, k3), (16, k4), (32, k5)] := by
    rw [derive_keys_backwards_compatible_insecure_pre_0_12]
    have he : fixedAmountsPre012.enum
        = [(0, 1), (1, 2), (2, 4), (3, 8), (4, 16), (5, 32)] := by decide
    rw [he]
    simp only [List.mapM_cons, List.mapM_nil, hk0, hk1, hk2, hk3, hk4, hk5,
      exceptPure, exceptBind_ok]
  refine ⟨[(1, k0), (2, k1), (4, k2), (8, k3), (16, k4), (32, k5)],
    ?_, hins, by simp, ?_⟩
  · simp only [derive_keys_version_aware, hv, exceptBind_ok]
    rw [if_pos hlt, hins]
  · have hr : List.range 6 = [0, 1, 2, 3, 4, 5] := by decide
    simp only [hr, List.map_cons, List.map_nil, hval0, hval1, hval2, hval3,
      hval4, hval5]

/-- Witness for C5 with version string `"0.11"` (bytes `48 46 49 49`),
empty seed, path and amount list. -/
theorem c5_pre012_derivation_witness :
    ∃ ks, derive_keys_version_aware shaOne serNil hmacConst [] [] []
        [48, 46, 49, 49] = .ok ks
      ∧ derive_keys_backwards_compatible_insecure_pre_0_12 shaOne [] []
          = .ok ks
      ∧ ks.map Prod.fst = [1, 2, 4, 8, 16, 32]
      ∧ ks.map (fun kv => kv.2.val)
          = (List.range 6).map (fun i => bytesToNatBE
              ((bytesToHexAscii (shaOne ([] ++ [] ++
                decimalAscii i))).take 32)) :=
  c5_pre012_derivation shaOne serNil hmacConst [] [] [] [48, 46, 49, 49]
    (0, 11, 0) shaOne_wf (by decide) (by decide)

/-- C9.  The code falls back to the weak source: when the secure random
source reports failure (`RAND_bytes != 1`, here `secureBytes = none`),
`generate_random_key` does not raise — it silently derives the key from
the `mt19937` fallback bytes.  This contradicts the spec, which requires a
fatal error (and `random_hash` in the same file does throw on `RAND_bytes`
failure), so the claim is right and the code wrong. -/
theorem c9_weak_source_fallback :
    ∃ k : PrivateKey,
      generate_random_key none (List.replicate 31 0 ++ [7]) = .ok k ∧
      k.val = 7 :=
  ⟨⟨7, by decide⟩, by decide, rfl⟩

/-- Totality of `alice_verify_dleq` away from the point at infinity: when
neither recomputed commitment degenerates, the check returns the boolean
comparison of the recomputed challenge with the serialized `e`. -/
theorem alice_verify_dleq_total (sha256 : List ℕ → List ℕ)
    (serializeU : Point → List ℕ) (B_ C_ A : Point) (e s : PrivateKey)
    (hR1 : (s.val : Point) ≠ (e.val : Point) * A)
    (hR2 : (s.val : Point) * B_ ≠ (e.val : Point) * C_) :
    alice_verify_dleq sha256 serializeU B_ C_ e s A
      = .ok (decide (hash_e sha256 serializeU
          ((s.val : Point) - (e.val : Point) * A)
          ((s.val : Point) * B_ - (e.val : Point) * C_) A C_
          = e.serialize)) := by
  simp only [alice_verify_dleq, PrivateKey.pubkey, pubMult_ok, exceptBind_ok]
  rw [pubSub_ok (sub_ne_zero_of_ne hR1)]
  simp only [exceptBind_ok]
  rw [pubSub_ok (sub_ne_zero_of_ne hR2)]
  simp only [exceptBind_ok]
  rfl

/-- C10 counterexample: a structurally valid input on which
`alice_verify_dleq` throws instead of returning a boolean.  With `e = s`
and `A = G` the recomputed `R1 = s·G − e·A` is the point at infinity, so
the point subtraction's combine step fails. -/
theorem c10_alice_verify_dleq_throws :
    alice_verify_dleq shaOne serNil 1 2 key1 key1 1
      = .error .combineFailed := by decide

/-- C10 (amended).  DLEQ verification returns a boolean — false, not an
error, for an invalid proof — on every structurally valid input on which
no intermediate point operation hits the point at infinity:
`alice_verify_dleq` needs `s·G ≠ e·A` and `s·B' ≠ e·C'`;
`carol_verify_dleq` additionally needs hash-to-curve to succeed and the
reconstructed points of both the current and the legacy fallback path to
stay clear of infinity.  (The unamended claim is refuted by
`c10_alice_verify_dleq_throws`.) -/
theorem c10_dleq_verify_total (sha256 : List ℕ → List ℕ)
    (parsePoint : List ℕ → Option Point) (serializeU : Point → List ℕ)
    (B_ C_ A C Y Yd : Point) (e s r : PrivateKey) (secret_msg : List ℕ)
    (depFuel : ℕ)
    (hR1 : (s.val : Point) ≠ (e.val : Point) * A)
    (hR2 : (s.val : Point) * B_ ≠ (e.val : Point) * C_) :
    (alice_verify_dleq sha256 serializeU B_ C_ e s A
      = .ok (decide (hash_e sha256 serializeU
          ((s.val : Point) - (e.val : Point) * A)
          ((s.val : Point) * B_ - (e.val : Point) * C_) A C_
          = e.serialize)))
    ∧ (hash_to_curve sha256 parsePoint secret_msg = .ok Y →
        hash_to_curve_deprecated sha256 parsePoint depFuel secret_msg
          = .ok Yd →
        C + (r.val : Point) * A ≠ 0 →
        Y + (r.val : Point) ≠ 0 →
        Yd + (r.val : Point) ≠ 0 →
        (s.val : Point) * (Y + (r.val : Point))
          ≠ (e.val : Point) * (C + (r.val : Point) * A) →
        (s.val : Point) * (Yd + (r.val : Point))
          ≠ (e.val : Point) * (C + (r.val : Point) * A) →
        ∃ b : Bool, carol_verify_dleq sha256 parsePoint serializeU depFuel
          secret_msg r C e s A = .ok b) := by
  constructor
  · exact alice_verify_dleq_total sha256 serializeU B_ C_ A e s hR1 hR2
  · intro hY hYd hCc hBc hBd hR2c hR2d
    simp only [carol_verify_dleq, hY, PrivateKey.pubkey, pubMult_ok,
      exceptBind_ok]
    rw [pubAdd_ok hCc]
    simp only [exceptBind_ok]
    rw [pubAdd_ok hBc]
    simp only [exceptBind_ok]
    rw [alice_verify_dleq_total sha256 serializeU (Y + (r.val : Point))
      (C + (r.val : Point) * A) A e s hR1 hR2c]
    simp only [exceptBind_ok]
    cases hdec : decide (hash_e sha256 serializeU
        ((s.val : Point) - (e.val : Point) * A)
        ((s.val : Point) * (Y + (r.val : Point))
          - (e.val : Point) * (C + (r.val : Point) * A)) A
        (C + (r.val : Point) * A) = e.serialize) with
    | true => exact ⟨true, rfl⟩
    | false =>
      simp only [Bool.false_eq_true, if_false]
      simp only [carol_verify_dleq_deprecated, hYd, PrivateKey.pubkey,
        pubMult_ok, exceptBind_ok]
      rw [pubAdd_ok hCc]
      simp only [exceptBind_ok]
      rw [pubAdd_ok hBd]
      simp only [exceptBind_ok]
      rw [alice_verify_dleq_total sha256 serializeU (Yd + (r.val : Point))
        (C + (r.val : Point) * A) A e s hR1 hR2d]
      exact ⟨_, rfl⟩

/-- Witness for the amended C10: concrete values on which both the
current-path and the legacy-path side conditions hold, so
`carol_verify_dleq` returns a boolean. -/
theorem c10_dleq_verify_total_witness :
    ∃ b : Bool, carol_verify_dleq shaOne parseFive serNil 1 [] key1 4 key1
      key2 3 = .ok b :=
  (c10_dleq_verify_total shaOne parseFive serNil 1 5 3 4 5 5 key1 key2 key1
    [] 1 (by decide) (by decide)).2 (by decide) (by decide) (by decide)
    (by decide) (by decide) (by decide) (by decide)

end Cashu
